import Mathlib

/-!
Verification of the Codex7 hybrid retrieval and graph-augmented reranking
engine against its natural-language specification.

The development shallowly embeds the Python sources:
  * python/graph/graph_builder.py   (entity and relationship extractor)
  * src/search/hybrid_search.py     (BM25 search wrapper, score fusion, graph enhancement)
  * src/search/rerank_service.py    (graph reranker)
  * src/graph/json_graph_client.py  (JSON graph store)
Scores are modelled with rationals, except the BM25 scoring formula of the
external rank-bm25 collaborator, which is modelled from the specification
over the reals.  Tree-sitter parsing is external to the engine: the extractor
is embedded as a function of the capture lists the queries produce.
-/

/-! ## Generic association-list and list helpers -/

/-- Lookup in an insertion-ordered association list (Python dict read). -/
def lookupA {κ α : Type} [DecidableEq κ] : List (κ × α) → κ → Option α
  | [], _ => none
  | (k, v) :: rest, key => if k = key then some v else lookupA rest key

/-- Write to an insertion-ordered association list (Python dict assignment):
an existing key is overwritten in place, a new key is appended at the end. -/
def insertA {κ α : Type} [DecidableEq κ] : List (κ × α) → κ → α → List (κ × α)
  | [], key, v => [(key, v)]
  | (k, w) :: rest, key, v =>
      if k = key then (key, v) :: rest else (k, w) :: insertA rest key v

/-- Keys of an association list, in insertion order. -/
def keysA {κ α : Type} (l : List (κ × α)) : List κ := l.map Prod.fst

/-- Stable insertion into a list sorted descending by the key `f`
(matches the tie behaviour of the stable Python sorts with reverse=True). -/
def insertDescBy {α : Type} (f : α → ℚ) (x : α) : List α → List α
  | [] => [x]
  | y :: ys => if f y < f x then x :: y :: ys else y :: insertDescBy f x ys

/-- Stable descending sort by the key `f`, as Python sorted(..., reverse=True). -/
def sortDescBy {α : Type} (f : α → ℚ) (l : List α) : List α :=
  l.foldr (insertDescBy f) []

/-- Stable insertion into a list sorted ascending by the key `f`. -/
def insertAscBy {α : Type} (f : α → ℚ) (x : α) : List α → List α
  | [] => [x]
  | y :: ys => if f x ≤ f y then x :: y :: ys else y :: insertAscBy f x ys

/-- Stable ascending sort by the key `f`. -/
def sortAscBy {α : Type} (f : α → ℚ) (l : List α) : List α :=
  l.foldr (insertAscBy f) []

/-- Drop later repetitions of a key, keeping the first occurrence
(the seen-set deduplication loops of json_graph_client.py). -/
def dedupFirstBy {α β : Type} [DecidableEq β] (f : α → β) (seen : List β) :
    List α → List α
  | [] => []
  | x :: xs =>
      if f x ∈ seen then dedupFirstBy f seen xs
      else x :: dedupFirstBy f (f x :: seen) xs

/-! ## Entity/relationship extractor (python/graph/graph_builder.py)

The extractor consumes tree-sitter query captures.  Parsing itself is an
external collaborator, so the embedding takes the capture lists as input:
one list per structural query, in document order, exactly as
query.captures(root_node) hands them to the Python loops.  Node ids are
uuid4 strings in the source; the embedding allocates fresh naturals from a
counter, which preserves exactly the identities the algorithm depends on
(distinctness and the entity-map references). -/

/-- Graph node of python/graph/models.py: label plus a name property; the
file nodes and function/class nodes also carry a path property. -/
structure GBNode where
  id : Nat
  label : String
  name : String
  path : Option String
deriving DecidableEq, Repr

/-- Graph relationship of python/graph/models.py. -/
structure GBRel where
  sourceId : Nat
  targetId : Nat
  rtype : String
deriving DecidableEq, Repr

/-- Entry of the entity_map dict: node id and entity type. -/
structure GBEntity where
  id : Nat
  etype : String
deriving DecidableEq, Repr

/-- Capture stream element of the classes query: a class_def capture, a
name capture, or a superclass capture, in document order. -/
inductive ClassCap where
  | classDef
  | className (s : String)
  | superclass (s : String)
deriving DecidableEq, Repr

/-- Capture element of the functions query: the result of
child_by_field_name applied to the captured node (none for the bare
identifier captures, which the loop skips), plus the start and end rows. -/
structure FnCapture where
  nameField : Option String
  startLine : Nat
  endLine : Nat
deriving DecidableEq, Repr

/-- Capture element of the calls query: the callee identifier found by
child_by_field_name (none makes the loop continue) and the call row. -/
structure CallCapture where
  fnField : Option String
  line : Nat
deriving DecidableEq, Repr

/-- All captures of one parsed file. -/
structure FileCaptures where
  imports : List String
  classes : List ClassCap
  functions : List FnCapture
  calls : List CallCapture
deriving Repr

/-- Function declaration record of the function_definitions list. -/
structure FuncDef where
  name : String
  id : Nat
  startLine : Nat
  endLine : Nat
deriving DecidableEq, Repr

/-- Mutable state threaded through the extraction loops: the fresh-id
counter, node and relationship accumulators, the entity_map, the
function_definitions list and the current_class_name of the classes loop. -/
structure GBState where
  counter : Nat
  nodes : List GBNode
  rels : List GBRel
  emap : List (String × GBEntity)
  fdefs : List FuncDef
  currentClass : Option String
deriving Repr

/-- Imports loop body: unseen module names get a Module node, an
entity-map entry and an IMPORTS edge from the file node. -/
def importStep (fileId : Nat) (s : GBState) (name : String) : GBState :=
  if (lookupA s.emap name).isSome then s
  else
    { s with
      counter := s.counter + 1
      nodes := s.nodes ++ [⟨s.counter, "Module", name, none⟩]
      emap := insertA s.emap name ⟨s.counter, "Module"⟩
      rels := s.rels ++ [⟨fileId, s.counter, "IMPORTS"⟩] }

/-- Classes loop body: a state machine over the capture tags.  A class_def
capture resets current_class_name; a name capture emits the Class node and
its CONTAINS edge; a superclass capture (with a current class) creates the
superclass node if absent and an INHERITS_FROM edge. -/
def classStep (filePath : String) (fileId : Nat) (s : GBState) (c : ClassCap) : GBState :=
  match c with
  | .classDef => { s with currentClass := none }
  | .className n =>
      { s with
        counter := s.counter + 1
        nodes := s.nodes ++ [⟨s.counter, "Class", n, some filePath⟩]
        emap := insertA s.emap n ⟨s.counter, "Class"⟩
        rels := s.rels ++ [⟨fileId, s.counter, "CONTAINS"⟩]
        currentClass := some n }
  | .superclass sup =>
      match s.currentClass with
      | none => s
      | some cur =>
          let s1 :=
            if (lookupA s.emap sup).isSome then s
            else
              { s with
                counter := s.counter + 1
                nodes := s.nodes ++ [⟨s.counter, "Class", sup, none⟩]
                emap := insertA s.emap sup ⟨s.counter, "Class"⟩ }
          match lookupA s1.emap cur, lookupA s1.emap sup with
          | some curEnt, some supEnt =>
              { s1 with rels := s1.rels ++ [⟨curEnt.id, supEnt.id, "INHERITS_FROM"⟩] }
          | _, _ => s1

/-- Functions loop body: captures without a name child are skipped; the
rest emit a Function node, a CONTAINS edge and a function_definitions
record for pass 2. -/
def fnStep (filePath : String) (fileId : Nat) (s : GBState) (c : FnCapture) : GBState :=
  match c.nameField with
  | none => s
  | some n =>
      { s with
        counter := s.counter + 1
        nodes := s.nodes ++ [⟨s.counter, "Function", n, some filePath⟩]
        emap := insertA s.emap n ⟨s.counter, "Function"⟩
        rels := s.rels ++ [⟨fileId, s.counter, "CONTAINS"⟩]
        fdefs := s.fdefs ++ [⟨n, s.counter, c.startLine, c.endLine⟩] }

/-- First function_definitions entry whose line span contains the call
line (the break in the caller-resolution loop keeps the first match). -/
def firstEnclosing (fdefs : List FuncDef) (line : Nat) : Option FuncDef :=
  fdefs.find? fun fd => fd.startLine ≤ line && line ≤ fd.endLine

/-- Pass-2 decision for one call capture: an edge is produced exactly when
the capture has a callee identifier, an enclosing declaration span exists
and the callee name is bound in the entity_map. -/
def pass2Edge (emap : List (String × GBEntity)) (fdefs : List FuncDef)
    (c : CallCapture) : Option GBRel :=
  match c.fnField with
  | none => none
  | some callee =>
      match firstEnclosing fdefs c.line, lookupA emap callee with
      | some caller, some ent => some ⟨caller.id, ent.id, "CALLS"⟩
      | _, _ => none

/-- Calls loop body: appends the pass-2 edge when one is produced. -/
def callStep (s : GBState) (c : CallCapture) : GBState :=
  match pass2Edge s.emap s.fdefs c with
  | none => s
  | some r => { s with rels := s.rels ++ [r] }

/-- State after pass 1 (imports, classes, functions) of
_extract_entities_and_relations, starting the fresh-id counter after the
file node id. -/
def extractP1 (filePath : String) (fileId : Nat) (caps : FileCaptures) : GBState :=
  let s0 : GBState := ⟨fileId + 1, [], [], [], [], none⟩
  let s1 := caps.imports.foldl (importStep fileId) s0
  let s2 := caps.classes.foldl (classStep filePath fileId) s1
  caps.functions.foldl (fnStep filePath fileId) s2

/-- GraphBuilder._extract_entities_and_relations: pass 1 collects the
declared entities, pass 2 (run only when function_definitions is
non-empty) resolves call sites; returns (nodes, relationships). -/
def extractEntitiesAndRelations (filePath : String) (fileId : Nat)
    (caps : FileCaptures) : List GBNode × List GBRel :=
  let s3 := extractP1 filePath fileId caps
  let s4 := if s3.fdefs.isEmpty then s3 else caps.calls.foldl callStep s3
  (s4.nodes, s4.rels)

/-- GraphBuilder.build_graph_for_file on a successfully parsed file: a
File node, then the extracted entities; the relationship accumulator is
rebound to the extracted list and then extended with itself
(relationships.extend(relationships)), so every relationship is returned
twice. -/
def buildGraphForFile (filePath : String) (caps : FileCaptures) :
    List GBNode × List GBRel :=
  let fileNode : GBNode := ⟨0, "File", filePath, some filePath⟩
  let (entities, rels) := extractEntitiesAndRelations filePath 0 caps
  (fileNode :: entities, rels ++ rels)

/-- Captures of the two-chunk scenario file: hello() with no calls and
main() whose body calls hello().  The functions query captures both the
definition nodes (with a name child) and the bare name identifiers
(without one); the calls query likewise captures the call node and its
identifier. -/
def helloMainCaps : FileCaptures :=
  { imports := []
    classes := []
    functions := [⟨some "hello", 0, 1⟩, ⟨none, 0, 0⟩, ⟨some "main", 3, 4⟩, ⟨none, 3, 3⟩]
    calls := [⟨some "hello", 4⟩, ⟨none, 4⟩] }

/-- Captures of a file declaring class C and a function f whose body calls
C() on a line inside the span of f. -/
def classCallCaps : FileCaptures :=
  { imports := []
    classes := [.classDef, .className "C"]
    functions := [⟨some "f", 2, 4⟩, ⟨none, 2, 2⟩]
    calls := [⟨some "C", 3⟩, ⟨none, 3⟩] }

/-! ## Search result model (src/types.py)

SearchResult and CodeChunk carry more presentation fields (file_path,
lines, language, chunk_type) than the verified paths ever read; the
embedding keeps the fields the fusion, enhancement and reranking code
inspects.  Metadata values are the scalars and payloads those paths
store. -/

/-- Chunk identity and content (the fields score fusion and the reranker
read from CodeChunk). -/
structure SChunk where
  id : String
  content : String
deriving DecidableEq, Repr

/-- Metadata value: a number, a list of search-type tags, or the
graph_context payload written by _enhance_with_graph (related node and
edge counts plus the optional related-function list). -/
inductive MetaVal where
  | num (q : ℚ)
  | strs (l : List String)
  | ctx (relatedNodes relatedEdges : Nat) (relatedFunctions : List (String × String))
deriving DecidableEq, Repr

/-- SearchResult of src/types.py. -/
structure SResult where
  chunk : SChunk
  score : ℚ
  rank : Nat
  searchType : String
  metadata : List (String × MetaVal)
deriving DecidableEq, Repr

/-! ## Score fusion (HybridSearch._combine_results) -/

/-- Min-max normalization of a score list: empty stays empty, a uniform
list maps to all 0.5, otherwise (s - min)/(max - min). -/
def normalizeScores : List ℚ → List ℚ
  | [] => []
  | s :: rest =>
      let scores := s :: rest
      let minScore := rest.foldl min s
      let maxScore := rest.foldl max s
      if maxScore = minScore then List.replicate scores.length (1/2)
      else scores.map fun x => (x - minScore) / (maxScore - minScore)

/-- Entry of the combined_dict built during fusion. -/
structure CombEntry where
  chunk : SChunk
  vectorScore : ℚ
  bm25Score : ℚ
  searchTypes : List String
deriving DecidableEq, Repr

/-- HybridSearch._combine_results: normalize both lists, union the
candidates by chunk id (a candidate in only one list keeps 0 for the
other signal), combine with the weights, sort descending by combined
score, truncate to top_k and assign 1-based ranks. -/
def combineResults (vectorResults bm25Results : List SResult)
    (vectorWeight bm25Weight : ℚ) (topK : Nat) : List SResult :=
  let vectorNorm := normalizeScores (vectorResults.map (·.score))
  let bm25Norm := normalizeScores (bm25Results.map (·.score))
  let d1 := vectorResults.enum.foldl
    (fun (d : List (String × CombEntry)) (p : Nat × SResult) =>
      if (lookupA d p.2.chunk.id).isSome then d
      else d ++ [(p.2.chunk.id, ⟨p.2.chunk, vectorNorm.getD p.1 0, 0, ["vector"]⟩)])
    []
  let d2 := bm25Results.enum.foldl
    (fun (d : List (String × CombEntry)) (p : Nat × SResult) =>
      match lookupA d p.2.chunk.id with
      | none => d ++ [(p.2.chunk.id, ⟨p.2.chunk, 0, bm25Norm.getD p.1 0, ["bm25"]⟩)]
      | some e =>
          insertA d p.2.chunk.id
            { e with bm25Score := bm25Norm.getD p.1 0
                     searchTypes := e.searchTypes ++ ["bm25"] })
    d1
  let withScores := d2.map fun p =>
    (p.1, p.2, p.2.vectorScore * vectorWeight + p.2.bm25Score * bm25Weight)
  let sortedResults := sortDescBy (fun x => x.2.2) withScores
  (sortedResults.take topK).enum.map fun p =>
    { chunk := p.2.2.1.chunk
      score := p.2.2.2
      rank := p.1 + 1
      searchType := "hybrid"
      metadata := [("vector_score", .num p.2.2.1.vectorScore),
                   ("bm25_score", .num p.2.2.1.bm25Score),
                   ("search_types", .strs p.2.2.1.searchTypes)] }

/-! ## JSON graph store (src/graph/json_graph_client.py) -/

/-- Stored node record: the node_data dict each create_*_node method
writes (its id, its type, scalar properties, file path and line). -/
structure JNodeData where
  id : String
  ntype : String
  props : List (String × String)
  filePath : String
  lineNumber : Nat
deriving DecidableEq, Repr

/-- Stored edge record of the edges list. -/
structure JEdge where
  sourceId : String
  targetId : String
  relationshipType : String
  props : List (String × String)
deriving DecidableEq, Repr

/-- The uniqueness key of an edge. -/
def edgeKey (e : JEdge) : String × String × String :=
  (e.sourceId, e.targetId, e.relationshipType)

/-- In-memory store: the nodes dict keyed by node id, and the edges list. -/
structure JStore where
  nodes : List (String × JNodeData)
  edges : List JEdge
deriving DecidableEq, Repr

/-- Python dict.update on a properties dict. -/
def updateProps (old new : List (String × String)) : List (String × String) :=
  new.foldl (fun a p => insertA a p.1 p.2) old

/-- Edge-list effect of create_relationship: the first edge with the same
(source, target, type) triple has its properties merged; if none exists
the new edge is appended. -/
def createRelEdges (src tgt ty : String) (props : List (String × String)) :
    List JEdge → List JEdge
  | [] => [⟨src, tgt, ty, props⟩]
  | e :: es =>
      if e.sourceId = src ∧ e.targetId = tgt ∧ e.relationshipType = ty then
        { e with props := updateProps e.props props } :: es
      else e :: createRelEdges src tgt ty props es

/-- Store write of one indexing call: every create_*_node method performs
the dict assignment data.nodes[id] = node_data, and create_relationship
(with all its helper wrappers) merges or appends an edge. -/
inductive JOp where
  | putNode (id : String) (data : JNodeData)
  | putEdge (src tgt ty : String) (props : List (String × String))
deriving DecidableEq, Repr

/-- Apply one store write. -/
def applyOp (s : JStore) : JOp → JStore
  | .putNode id data => { s with nodes := insertA s.nodes id data }
  | .putEdge src tgt ty props => { s with edges := createRelEdges src tgt ty props s.edges }

/-- Run an indexing pass (a list of store writes) left to right. -/
def runOps (s : JStore) (ops : List JOp) : JStore :=
  ops.foldl applyOp s

/-- Node count per kind, as get_database_stats counts the nodes dict. -/
def nodeCountByType (s : JStore) (t : String) : Nat :=
  (s.nodes.map fun p => p.2.ntype).count t

/-- Edge count per relationship type, as get_database_stats counts the
edges list. -/
def edgeCountByType (s : JStore) (t : String) : Nat :=
  (s.edges.map fun e => e.relationshipType).count t

/-- Result of a graph query (GraphResult of src/types.py): deduplicated
nodes and edges plus the metadata dict recording query type and the
requested max_hops. -/
structure RGraphResult where
  nodes : List JNodeData
  edges : List JEdge
  mdQueryType : String
  mdMaxHops : Nat
deriving DecidableEq, Repr

/-- JsonGraphClient.find_related_chunks: one pass over the stored edges
keeps those of an allowed relationship type incident to the chunk id,
collecting for each such edge the stored records of its endpoints; then
nodes are deduplicated by id and edges by their triple.  The max_hops
argument is only recorded in the metadata. -/
def findRelatedChunks (s : JStore) (chunkId : String) (rtypes : List String)
    (maxHops : Nat) : RGraphResult :=
  let scan := s.edges.foldl
    (fun (acc : List JEdge × List JNodeData) e =>
      if e.relationshipType ∈ rtypes ∧ (e.sourceId = chunkId ∨ e.targetId = chunkId) then
        (acc.1 ++ [e],
         acc.2 ++ [e.sourceId, e.targetId].filterMap (lookupA s.nodes))
      else acc)
    ([], [])
  { nodes := dedupFirstBy (fun n => n.id) [] scan.2
    edges := dedupFirstBy edgeKey [] scan.1
    mdQueryType := "related_chunks"
    mdMaxHops := maxHops }

/-! ## Character and string helpers for the content heuristics

Python string operations (lower, strip, split, substring membership) are
modelled over the character lists of the strings; the ASCII behaviour the
code relies on is what Char.toLower and Char.isWhitespace provide. -/

/-- Test whether the pattern list is an initial segment of the text list. -/
def startsWithL : List Char → List Char → Bool
  | _, [] => true
  | [], _ :: _ => false
  | c :: cs, p :: ps => c == p && startsWithL cs ps

/-- Python substring membership: pat in hay (the empty pattern matches). -/
def hasSub : List Char → List Char → Bool
  | hay, pat =>
      startsWithL hay pat ||
        match hay with
        | [] => false
        | _ :: t => hasSub t pat

/-- Lowercase a character list (str.lower on the modelled ASCII range). -/
def lowerL (l : List Char) : List Char := l.map Char.toLower

/-- Substring membership of strings after lowercasing both sides. -/
def containsLower (hay pat : String) : Bool :=
  hasSub (lowerL hay.data) (lowerL pat.data)

/-- Python str.lstrip: drop leading whitespace. -/
def lstripL (l : List Char) : List Char := l.dropWhile Char.isWhitespace

/-- Python str.strip: drop whitespace on both ends. -/
def stripL (l : List Char) : List Char :=
  ((l.dropWhile Char.isWhitespace).reverse.dropWhile Char.isWhitespace).reverse

/-- Split a character list at a separator character (str.split of one
separator: empty pieces are kept, as Python content.split of a newline). -/
def splitChar (sep : Char) : List Char → List (List Char)
  | [] => [[]]
  | c :: rest =>
      let r := splitChar sep rest
      if c == sep then [] :: r
      else
        match r with
        | [] => [[c]]
        | piece :: pieces => (c :: piece) :: pieces

/-- Lines of a content string, as content.split of the newline. -/
def contentLines (s : String) : List (List Char) :=
  splitChar (Char.ofNat 10) s.data

/-- Whitespace split discarding empty pieces (Python str.split with no
argument), used by the BM25 tokenizer. -/
def splitWsGo (acc : List Char) : List Char → List (List Char)
  | [] => if acc.isEmpty then [] else [acc.reverse]
  | c :: rest =>
      if c.isWhitespace then
        if acc.isEmpty then splitWsGo [] rest
        else acc.reverse :: splitWsGo [] rest
      else splitWsGo (c :: acc) rest

/-- Whitespace tokenization of a character list. -/
def splitWs (l : List Char) : List (List Char) := splitWsGo [] l

/-! ## Graph reranker (src/search/rerank_service.py) -/

/-- Configured rerank threshold (Settings.rerank_threshold default 0.5). -/
def rerankThreshold : ℚ := 1/2

/-- Relationship types the reranker requests from the graph store in
_calculate_graph_score. -/
def rerankerRelTypes : List String := ["CALLS", "DEFINED_IN", "CONTAINS", "HAS_METHOD"]

/-- Neighborhood query issued per candidate by _calculate_graph_score. -/
def rerankerNeighborhood (s : JStore) (chunkId : String) : RGraphResult :=
  findRelatedChunks s chunkId rerankerRelTypes 2

/-- The feature dict _extract_graph_features builds (all eleven keys). -/
structure GraphFeatures where
  nodeCount : ℚ
  edgeCount : ℚ
  degreeCentrality : ℚ
  queryFunctionMatches : ℚ
  queryClassMatches : ℚ
  functionDepth : ℚ
  classHierarchyDepth : ℚ
  callFrequency : ℚ
  inheritanceImportance : ℚ
  codeComplexity : ℚ
  documentationScore : ℚ
deriving DecidableEq, Repr

/-- Bump a counter in the node_degrees defaultdict. -/
def bumpDegree (d : List (String × Nat)) (k : String) : List (String × Nat) :=
  insertA d k ((lookupA d k).getD 0 + 1)

/-- GraphReranker._calculate_degree_centrality: max node degree over the
neighborhood edges divided by the neighborhood node count. -/
def degreeCentrality (g : RGraphResult) : ℚ :=
  if g.nodes.isEmpty then 0
  else
    let degrees := g.edges.foldl
      (fun d e => bumpDegree (bumpDegree d e.sourceId) e.targetId) []
    if degrees.isEmpty then 0
    else ((degrees.map Prod.snd).foldr max 0 : ℚ) / g.nodes.length

/-- GraphReranker._count_query_function_matches: function nodes whose id
contains the lowercased query. -/
def countQueryFunctionMatches (query : String) (g : RGraphResult) : Nat :=
  ((g.nodes.filter fun n => n.ntype = "Function").filter fun n =>
    containsLower n.id query).length

/-- GraphReranker._count_query_class_matches: class nodes whose id
contains the lowercased query. -/
def countQueryClassMatches (query : String) (g : RGraphResult) : Nat :=
  ((g.nodes.filter fun n => n.ntype = "Class").filter fun n =>
    containsLower n.id query).length

/-- GraphReranker._calculate_function_call_depth.  The source recursion is
bounded by its depth guard (it returns as soon as current_depth exceeds
10); the embedding makes that bound explicit with a fuel argument that
dominates the remaining recursion depth, so fuel 12 is never exhausted
from depth 0 and the fuel-0 branch is unreachable under the guard. -/
def callDepthGo (edges : List JEdge) : Nat → String → Nat → Nat
  | 0, _, currentDepth => currentDepth
  | fuel + 1, functionId, currentDepth =>
      if 10 < currentDepth then currentDepth
      else
        let called := ((edges.filter fun e =>
          e.sourceId == functionId && e.relationshipType == "CALLS").map
            fun e => e.targetId)
        if called.isEmpty then currentDepth
        else called.foldl
          (fun m c => max m (callDepthGo edges fuel c (currentDepth + 1)))
          currentDepth

/-- Call-depth computation entered at a given current depth. -/
def calculateFunctionCallDepth (edges : List JEdge) (functionId : String)
    (currentDepth : Nat) : Nat :=
  callDepthGo edges 12 functionId currentDepth

/-- GraphReranker._calculate_function_depth: max call depth from the
neighborhood function nodes other than the candidate chunk. -/
def calculateFunctionDepth (chunkId : String) (g : RGraphResult) : Nat :=
  let functionNodes := g.nodes.filter fun n => n.ntype = "Function" ∧ n.id ≠ chunkId
  if functionNodes.isEmpty then 0
  else functionNodes.foldl
    (fun m n => max m (calculateFunctionCallDepth g.edges n.id 0)) 0

/-- GraphReranker._calculate_class_inheritance_depth, embedded with the
same fuel bound as the call-depth recursion. -/
def inheritDepthGo (edges : List JEdge) : Nat → String → Nat → Nat
  | 0, _, currentDepth => currentDepth
  | fuel + 1, classId, currentDepth =>
      if 10 < currentDepth then currentDepth
      else
        let parents := ((edges.filter fun e =>
          e.sourceId == classId && e.relationshipType == "INHERITS_FROM").map
            fun e => e.targetId)
        if parents.isEmpty then currentDepth
        else parents.foldl
          (fun m c => max m (inheritDepthGo edges fuel c (currentDepth + 1)))
          currentDepth

/-- Inheritance-depth computation entered at a given current depth. -/
def calculateClassInheritanceDepth (edges : List JEdge) (classId : String)
    (currentDepth : Nat) : Nat :=
  inheritDepthGo edges 12 classId currentDepth

/-- GraphReranker._calculate_class_hierarchy_depth. -/
def calculateClassHierarchyDepth (g : RGraphResult) : Nat :=
  let classNodes := g.nodes.filter fun n => n.ntype = "Class"
  if classNodes.isEmpty then 0
  else classNodes.foldl
    (fun m n => max m (calculateClassInheritanceDepth g.edges n.id 0)) 0

/-- GraphReranker._calculate_call_frequency: incoming CALLS edges to the
chunk over the neighborhood node count. -/
def calculateCallFrequency (chunkId : String) (g : RGraphResult) : ℚ :=
  let incoming := (g.edges.filter fun e =>
    e.targetId = chunkId ∧ e.relationshipType = "CALLS").length
  if g.nodes.length = 0 then 0 else (incoming : ℚ) / g.nodes.length

/-- GraphReranker._calculate_inheritance_importance: incoming
INHERITS_FROM edges to the chunk over the neighborhood node count. -/
def calculateInheritanceImportance (chunkId : String) (g : RGraphResult) : ℚ :=
  let children := (g.edges.filter fun e =>
    e.targetId = chunkId ∧ e.relationshipType = "INHERITS_FROM").length
  if g.nodes.length = 0 then 0 else (children : ℚ) / g.nodes.length

/-- Control-flow keywords counted by _estimate_code_complexity. -/
def controlKeywords : List String :=
  ["if", "else", "elif", "for", "while", "try", "except", "catch", "switch"]

/-- GraphReranker._estimate_code_complexity: keyword occurrences per line
plus max indentation / 4, normalized per 1000 characters, capped at 1. -/
def estimateCodeComplexity (content : String) : ℚ :=
  let lines := contentLines content
  let keywordScore := lines.foldl
    (fun acc line =>
      acc + (controlKeywords.filter fun kw => hasSub (lowerL line) kw.data).length)
    0
  let maxIndent := lines.foldl
    (fun acc line =>
      if (stripL line).isEmpty then acc
      else max acc (line.length - (lstripL line).length))
    0
  let score : ℚ := keywordScore + maxIndent / 4
  let contentLength := content.data.length
  let normalized : ℚ :=
    if 0 < contentLength then score / ((contentLength : ℚ) / 1000) else score
  min normalized 1

/-- Leading markers of a documentation line. -/
def hashMark : List Char := [Char.ofNat 35]

/-- Double-slash comment marker. -/
def slashSlash : List Char := [Char.ofNat 47, Char.ofNat 47]

/-- Slash-star comment marker. -/
def slashStar : List Char := [Char.ofNat 47, Char.ofNat 42]

/-- Triple double-quote docstring marker. -/
def tripleDq : List Char := [Char.ofNat 34, Char.ofNat 34, Char.ofNat 34]

/-- Triple single-quote docstring marker. -/
def tripleSq : List Char := [Char.ofNat 39, Char.ofNat 39, Char.ofNat 39]

/-- GraphReranker._calculate_documentation_score: ratio of comment or
docstring-marker lines to non-blank lines, capped at 1. -/
def calculateDocumentationScore (content : String) : ℚ :=
  let lines := contentLines content
  let documentationLines := (lines.filter fun line =>
    let stripped := stripL line
    startsWithL stripped hashMark || startsWithL stripped slashSlash ||
      startsWithL stripped slashStar || hasSub stripped tripleDq ||
      hasSub stripped tripleSq).length
  let totalLines := (lines.filter fun line => !(stripL line).isEmpty).length
  if totalLines = 0 then 0
  else min ((documentationLines : ℚ) / totalLines) 1

/-- GraphReranker._extract_graph_features. -/
def extractGraphFeatures (r : SResult) (query : String) (g : RGraphResult) :
    GraphFeatures :=
  { nodeCount := g.nodes.length
    edgeCount := g.edges.length
    degreeCentrality := degreeCentrality g
    queryFunctionMatches := countQueryFunctionMatches query g
    queryClassMatches := countQueryClassMatches query g
    functionDepth := calculateFunctionDepth r.chunk.id g
    classHierarchyDepth := calculateClassHierarchyDepth g
    callFrequency := calculateCallFrequency r.chunk.id g
    inheritanceImportance := calculateInheritanceImportance r.chunk.id g
    codeComplexity := estimateCodeComplexity r.chunk.content
    documentationScore := calculateDocumentationScore r.chunk.content }

/-- Normalization _calculate_feature_score applies per weighted feature:
value / max(1, weight), capped at 1 (all weights are below 1, so the
divisor is always 1). -/
def normFeature (value weight : ℚ) : ℚ := min (value / max 1 weight) 1

/-- GraphReranker._calculate_feature_score: weighted average of the nine
weighted features (node_count and edge_count carry no weight and are
skipped); the weights sum to 1.6. -/
def calculateFeatureScore (f : GraphFeatures) : ℚ :=
  let totalScore :=
    normFeature f.degreeCentrality (2/10) * (2/10) +
    normFeature f.queryFunctionMatches (3/10) * (3/10) +
    normFeature f.queryClassMatches (3/10) * (3/10) +
    normFeature f.functionDepth (1/10) * (1/10) +
    normFeature f.classHierarchyDepth (1/10) * (1/10) +
    normFeature f.callFrequency (2/10) * (2/10) +
    normFeature f.inheritanceImportance (2/10) * (2/10) +
    normFeature f.codeComplexity (1/10) * (1/10) +
    normFeature f.documentationScore (1/10) * (1/10)
  let totalWeight : ℚ := 16/10
  totalScore / totalWeight

/-- GraphReranker._calculate_graph_score: the neighborhood query runs
under a try block; a raising query yields 0.0 for the candidate, a
successful one yields the feature score of its result.  The query is the
collaborator call, passed as a fallible function. -/
def calcGraphScore (graphQuery : String → Except Unit RGraphResult)
    (r : SResult) (query : String) : ℚ :=
  match graphQuery r.chunk.id with
  | .error _ => 0
  | .ok g => calculateFeatureScore (extractGraphFeatures r query g)

/-- GraphReranker._combine_scores: the graph signal gets weight 0.4 above
the threshold and 0.2 otherwise. -/
def combineScores (threshold originalScore graphScore : ℚ) : ℚ :=
  if threshold < graphScore then originalScore * (6/10) + graphScore * (4/10)
  else originalScore * (8/10) + graphScore * (2/10)

/-- Per-candidate update of rerank_results: compute the graph score,
blend it into the candidate score and record both in the metadata. -/
def rerankOne (graphQuery : String → Except Unit RGraphResult)
    (query : String) (r : SResult) : SResult :=
  let graphScore := calcGraphScore graphQuery r query
  let combined := combineScores rerankThreshold r.score graphScore
  { r with
    score := combined
    metadata := insertA (insertA r.metadata "graph_score" (.num graphScore))
      "combined_score" (.num combined) }

/-- GraphReranker.rerank_results: score every candidate, sort descending
by the blended score, reassign 1-based ranks, truncate to top_k. -/
def rerankResults (graphQuery : String → Except Unit RGraphResult)
    (query : String) (results : List SResult) (topK : Nat) : List SResult :=
  if results.isEmpty then results
  else
    let reranked := results.map (rerankOne graphQuery query)
    let sorted := sortDescBy (·.score) reranked
    ((sorted.enum.map fun p => { p.2 with rank := p.1 + 1 }).take topK)

/-! ## Graph enhancement and hybrid search entry (HybridSearch) -/

/-- Relationship types _enhance_with_graph requests. -/
def enhanceRelTypes : List String := ["CALLS", "DEFINED_IN", "CONTAINS"]

/-- Loop body of _enhance_with_graph for the remaining candidates.  The
loop runs inside one try block: a raising graph query aborts the loop and
the except handler returns the list as it stands, with the candidates
already visited enhanced and the rest untouched.  A successful query adds
the graph_context entry (node and edge counts, and the related-function
list when function nodes are present) to the candidate metadata. -/
def enhanceGo (graphQuery : String → Except Unit RGraphResult) :
    List SResult → List SResult
  | [] => []
  | r :: rest =>
      match graphQuery r.chunk.id with
      | .error _ => r :: rest
      | .ok g =>
          let relatedFunctions := g.nodes.filter fun n => n.ntype = "Function"
          let ctx := MetaVal.ctx g.nodes.length g.edges.length
            (if relatedFunctions.isEmpty then []
             else relatedFunctions.map fun n => (n.id, n.filePath))
          { r with metadata := insertA r.metadata "graph_context" ctx } ::
            enhanceGo graphQuery rest

/-- HybridSearch._enhance_with_graph. -/
def enhanceWithGraph (graphQuery : String → Except Unit RGraphResult)
    (results : List SResult) : List SResult :=
  enhanceGo graphQuery results

/-- HybridSearch.search after the two base retrievals: fuse the vector
and BM25 lists, then enhance with graph context when requested and the
fused list is non-empty.  The base retrievals are external collaborator
calls, so the fused inputs are parameters. -/
def hybridSearch (useGraph : Bool)
    (graphQuery : String → Except Unit RGraphResult)
    (vectorResults bm25Results : List SResult)
    (vectorWeight bm25Weight : ℚ) (topK : Nat) : List SResult :=
  let combined := combineResults vectorResults bm25Results vectorWeight bm25Weight topK
  if useGraph ∧ ¬combined.isEmpty then enhanceWithGraph graphQuery combined
  else combined

/-! ## BM25 search (BM25Search of src/search/hybrid_search.py)

The scoring itself is delegated to the external rank-bm25 collaborator
(BM25Okapi), so BM25Search.search is embedded as a function of the score
vector that collaborator returns; the positive-score filter, the argsort
selection and the rank assignment are the code under verification.
np.argsort leaves tie order unspecified; the embedding picks the stable
ascending order. -/

/-- Selected BM25 result: corpus index, score and assigned rank. -/
structure BM25Sel where
  index : Nat
  score : ℚ
  rank : Nat
deriving DecidableEq, Repr

/-- Ascending argsort of a score list. -/
def argsortAsc (scores : List ℚ) : List Nat :=
  sortAscBy (fun i => scores.getD i 0) (List.range scores.length)

/-- BM25Search.search given the collaborator score vector: take the top_k
indices by descending score, enumerate them for ranks, and keep only the
strictly positive scores. -/
def bm25SearchSelect (scores : List ℚ) (topK : Nat) : List BM25Sel :=
  let topIndices := (argsortAsc scores).reverse.take topK
  topIndices.enum.filterMap fun p =>
    if 0 < scores.getD p.2 0 then some ⟨p.2, scores.getD p.2 0, p.1 + 1⟩
    else none

/-- Word character of the tokenizer regex (ASCII \w). -/
def isWordChar (c : Char) : Bool :=
  c.isAlpha || c.isDigit || c == Char.ofNat 95

/-- Dot character kept by the tokenizer. -/
def dotChar : Char := Char.ofNat 46

/-- BM25Search._preprocess_text: lowercase, replace every character that
is not a word character, whitespace or a dot by a space, split on
whitespace, drop tokens of length at most 1. -/
def preprocessText (s : String) : List String :=
  let cs := lowerL s.data
  let cleaned := cs.map fun c =>
    if isWordChar c || c.isWhitespace || c == dotChar then c else Char.ofNat 32
  ((splitWs cleaned).filter fun t => 1 < t.length).map fun t => String.mk t

/-- Modelled from the spec: the BM25 scoring formula (spec section 4.2) of
the external rank-bm25 collaborator, which is not part of src/.  Term
frequency of a token in a tokenized document. -/
def termFreq (t : String) (d : List String) : Nat := d.count t

/-- Modelled from the spec: document frequency of a token in the corpus. -/
def docFreq (t : String) (corpus : List (List String)) : Nat :=
  (corpus.filter fun d => d.contains t).length

/-- Modelled from the spec: mean tokenized document length of the corpus. -/
noncomputable def avgdl (corpus : List (List String)) : ℝ :=
  ((corpus.map List.length).sum : ℝ) / corpus.length

/-- Modelled from the spec: IDF(t) = ln((N - df + 0.5)/(df + 0.5) + 1). -/
noncomputable def bm25IDF (corpus : List (List String)) (t : String) : ℝ :=
  Real.log (((corpus.length : ℝ) - docFreq t corpus + 1/2) / (docFreq t corpus + 1/2) + 1)

/-- Default k1 parameter of the keyword ranker. -/
noncomputable def bm25K1 : ℝ := 12/10

/-- Default b parameter of the keyword ranker. -/
noncomputable def bm25B : ℝ := 3/4

/-- Modelled from the spec: per-term BM25 contribution
IDF(t) * f(t,d)*(k1+1) / (f(t,d) + k1*(1 - b + b*|d|/avgdl)). -/
noncomputable def bm25TermScore (corpus : List (List String)) (t : String)
    (d : List String) : ℝ :=
  bm25IDF corpus t * ((termFreq t d : ℝ) * (bm25K1 + 1)) /
    ((termFreq t d : ℝ) + bm25K1 * (1 - bm25B + bm25B * ((d.length : ℝ) / avgdl corpus)))

/-- Modelled from the spec: document score as the sum over query terms. -/
noncomputable def bm25ScoreSpec (corpus : List (List String))
    (queryTokens : List String) (d : List String) : ℝ :=
  (queryTokens.map fun t => bm25TermScore corpus t d).sum

/-! ## Spec-side definitions and concrete instances for the claims -/

/-- Modelled from the spec: the relationship-type set the specification
says the reranker neighborhood uses (spec section 4.4), including
INHERITS_FROM. -/
def specNeighborhoodTypes : List String :=
  ["CALLS", "DEFINED_IN", "CONTAINS", "HAS_METHOD", "INHERITS_FROM"]

/-- Modelled from the spec: node ids within the given number of hops of a
start node along edges of the allowed types, each hop following an
incident edge to either endpoint (spec section 4.4 bounded-hop
neighborhood). -/
def specHopBall (s : JStore) (rtypes : List String) (start : String) :
    Nat → List String
  | 0 => [start]
  | k + 1 =>
      let prev := specHopBall s rtypes start k
      prev ++ (s.edges.filter fun e =>
        e.relationshipType ∈ rtypes ∧
          (e.sourceId ∈ prev ∨ e.targetId ∈ prev)).foldr
        (fun e acc => e.sourceId :: e.targetId :: acc) []

/-- Concrete store exercising the neighborhood query: a two-step CALLS
chain A to B to C and an INHERITS_FROM edge at A. -/
def c3Store : JStore :=
  { nodes :=
      [("A", ⟨"A", "Chunk", [], "a.py", 1⟩),
       ("B", ⟨"B", "Function", [], "b.py", 1⟩),
       ("C", ⟨"C", "Function", [], "c.py", 1⟩),
       ("D", ⟨"D", "Class", [], "d.py", 1⟩)]
    edges :=
      [⟨"A", "B", "CALLS", []⟩,
       ⟨"B", "C", "CALLS", []⟩,
       ⟨"A", "D", "INHERITS_FROM", []⟩] }

/-- Concrete cyclic call graph: A calls B and B calls A. -/
def cycEdges : List JEdge :=
  [⟨"A", "B", "CALLS", []⟩, ⟨"B", "A", "CALLS", []⟩]

/-- Concrete cyclic inheritance graph: A inherits from B and B from A. -/
def cycInhEdges : List JEdge :=
  [⟨"A", "B", "INHERITS_FROM", []⟩, ⟨"B", "A", "INHERITS_FROM", []⟩]

/-- Vector result A with raw similarity 0.9 for the fusion scenario. -/
def fusionVecA : SResult := ⟨⟨"A", ""⟩, 9/10, 1, "vector", []⟩

/-- Vector result B with raw similarity 0.1 for the fusion scenario. -/
def fusionVecB : SResult := ⟨⟨"B", ""⟩, 1/10, 2, "vector", []⟩

/-- BM25 result B with raw score 5 for the fusion scenario. -/
def fusionBmB : SResult := ⟨⟨"B", ""⟩, 5, 1, "bm25", []⟩

/-- BM25 result A with raw score 1 for the fusion scenario. -/
def fusionBmA : SResult := ⟨⟨"A", ""⟩, 1, 2, "bm25", []⟩

/-- Candidate whose graph query will fail in the rerank witness. -/
def failCand : SResult := ⟨⟨"c1", "x"⟩, 7/10, 1, "hybrid", []⟩

/-- Candidate whose graph query succeeds in the rerank witness. -/
def okCand : SResult := ⟨⟨"c2", "y"⟩, 3/10, 2, "hybrid", []⟩

/-- Graph query that raises exactly on the failing candidate. -/
def failingQuery (cid : String) : Except Unit RGraphResult :=
  if cid = "c1" then .error () else .ok ⟨[], [], "related_chunks", 2⟩

/-- Indexing pass used by the idempotence witness: one file node, one
chunk node and the CONTAINS edge between them, as index_chunks issues. -/
def witnessOps : List JOp :=
  [.putNode "f.py" ⟨"f.py", "File", [("language", "python")], "f.py", 0⟩,
   .putNode "ck1" ⟨"ck1", "Chunk", [("chunk_type", "function")], "f.py", 1⟩,
   .putEdge "f.py" "ck1" "CONTAINS" []]

/-! ## Write-set abstractions used to reason about repeated indexing -/

/-- Accumulate unseen keys at the end, as repeated dict inserts and edge
appends grow the key sequence of the store. -/
def keyFold {β : Type} [DecidableEq β] (b : List β) (l : List β) : List β :=
  l.foldl (fun ks k => if k ∈ ks then ks else ks ++ [k]) b

/-- Fold step recording the last node payload written to a given id. -/
def lastWriteStep (id : String) (acc : Option JNodeData) : JOp → Option JNodeData
  | JOp.putNode i d => if i = id then some d else acc
  | JOp.putEdge _ _ _ _ => acc

/-- Last node payload an operation list writes to a given id. -/
def lastNodeWrite (ops : List JOp) (id : String) : Option JNodeData :=
  ops.foldl (lastWriteStep id) none

/-- Node ids an operation list writes, in order. -/
def opNodeKeys (ops : List JOp) : List String :=
  ops.filterMap fun op =>
    match op with
    | JOp.putNode i _ => some i
    | JOp.putEdge _ _ _ _ => none

/-- Edge triples an operation list writes, in order. -/
def opEdgeKeys (ops : List JOp) : List (String × String × String) :=
  ops.filterMap fun op =>
    match op with
    | JOp.putNode _ _ => none
    | JOp.putEdge src tgt ty _ => some (src, tgt, ty)

/-! ## Helper lemmas -/

theorem lookupA_insertA_self {κ α : Type} [DecidableEq κ]
    (l : List (κ × α)) (k : κ) (v : α) : lookupA (insertA l k v) k = some v := by
  induction l with
  | nil => simp [insertA, lookupA]
  | cons p rest ih =>
      by_cases h : p.1 = k
      · simp [insertA, h, lookupA]
      · simp [insertA, h, lookupA, ih]

theorem lookupA_insertA_ne {κ α : Type} [DecidableEq κ]
    (l : List (κ × α)) (k k' : κ) (v : α) (h : k ≠ k') :
    lookupA (insertA l k v) k' = lookupA l k' := by
  induction l with
  | nil => simp [insertA, lookupA, h]
  | cons p rest ih =>
      by_cases hp : p.1 = k
      · simp [insertA, hp, lookupA, h]
      · simp [insertA, hp, lookupA, ih]

theorem keysA_cons {κ α : Type} (p : κ × α) (l : List (κ × α)) :
    keysA (p :: l) = p.1 :: keysA l := rfl

theorem keysA_insertA {κ α : Type} [DecidableEq κ]
    (l : List (κ × α)) (k : κ) (v : α) :
    keysA (insertA l k v) = if k ∈ keysA l then keysA l else keysA l ++ [k] := by
  induction l with
  | nil => simp [insertA, keysA]
  | cons p rest ih =>
      by_cases hp : p.1 = k
      · simp [insertA, hp, keysA_cons]
      · have h1 : insertA (p :: rest) k v = p :: insertA rest k v := by
          simp [insertA, hp]
        rw [h1, keysA_cons, keysA_cons, ih]
        have hk : ¬ k = p.1 := fun h => hp h.symm
        by_cases hm : k ∈ keysA rest
        · simp [hm, hk]
        · simp [hm, hk]

theorem lookupA_eq_none_of_not_mem {κ α : Type} [DecidableEq κ]
    (l : List (κ × α)) (k : κ) (h : k ∉ keysA l) : lookupA l k = none := by
  induction l with
  | nil => rfl
  | cons p rest ih =>
      rw [keysA_cons, List.mem_cons] at h
      push_neg at h
      have hp : ¬ p.1 = k := fun hh => h.1 hh.symm
      simp [lookupA, hp, ih h.2]

theorem assocExt {κ α : Type} [DecidableEq κ] :
    ∀ (l₁ l₂ : List (κ × α)), keysA l₁ = keysA l₂ → (keysA l₁).Nodup →
      (∀ k, lookupA l₁ k = lookupA l₂ k) → l₁ = l₂ := by
  intro l₁
  induction l₁ with
  | nil =>
      intro l₂ hk _ _
      cases l₂ with
      | nil => rfl
      | cons q t => simp [keysA] at hk
  | cons p t₁ ih =>
      intro l₂ hk hnd hl
      cases l₂ with
      | nil => simp [keysA] at hk
      | cons q t₂ =>
          rw [keysA_cons, keysA_cons] at hk
          injection hk with hk1 hk2
          rw [keysA_cons, List.nodup_cons] at hnd
          have hv : p.2 = q.2 := by
            have h0 := hl p.1
            have e1 : lookupA (p :: t₁) p.1 = some p.2 := by simp [lookupA]
            have e2 : lookupA (q :: t₂) p.1 = some q.2 := by simp [lookupA, hk1.symm]
            rw [e1, e2] at h0
            exact Option.some.inj h0
          have hpq : p = q := by
            cases p; cases q
            simp only at hk1 hv
            simp [hk1, hv]
          subst hpq
          have ht : t₁ = t₂ := by
            apply ih t₂ hk2 hnd.2
            intro k
            by_cases hkp : k = p.1
            · rw [hkp, lookupA_eq_none_of_not_mem t₁ p.1 hnd.1,
                lookupA_eq_none_of_not_mem t₂ p.1 (by rw [← hk2]; exact hnd.1)]
            · have h0 := hl k
              have hp1 : ¬ p.1 = k := fun hh => hkp hh.symm
              simpa [lookupA, hp1] using h0
          rw [ht]

theorem mem_dedupFirstBy {α β : Type} [DecidableEq β] (f : α → β) :
    ∀ (seen : List β) (l : List α) (x : α), x ∈ dedupFirstBy f seen l → x ∈ l := by
  intro seen l
  induction l generalizing seen with
  | nil => intro x hx; simp [dedupFirstBy] at hx
  | cons y ys ih =>
      intro x hx
      by_cases h : f y ∈ seen
      · simp only [dedupFirstBy, if_pos h] at hx
        exact List.mem_cons_of_mem _ (ih _ x hx)
      · simp only [dedupFirstBy, if_neg h, List.mem_cons] at hx
        rcases hx with rfl | hx
        · exact List.mem_cons_self _ _
        · exact List.mem_cons_of_mem _ (ih _ x hx)

theorem dedupFirstBy_covers {α β : Type} [DecidableEq β] (f : α → β) :
    ∀ (seen : List β) (l : List α) (x : α), x ∈ l → f x ∉ seen →
      ∃ y ∈ dedupFirstBy f seen l, f y = f x := by
  intro seen l
  induction l generalizing seen with
  | nil => intro x hx; simp at hx
  | cons z zs ih =>
      intro x hx hs
      rcases List.mem_cons.mp hx with rfl | hx
      · exact ⟨x, by simp [dedupFirstBy, hs], rfl⟩
      · by_cases h : f z ∈ seen
        · simp only [dedupFirstBy, if_pos h]
          exact ih seen x hx hs
        · simp only [dedupFirstBy, if_neg h]
          by_cases hfx : f x = f z
          · exact ⟨z, List.mem_cons_self _ _, hfx.symm⟩
          · obtain ⟨y, hy, hfy⟩ := ih (f z :: seen) x hx
              (by simp [hs, hfx])
            exact ⟨y, List.mem_cons_of_mem _ hy, hfy⟩

theorem sortDescBy_perm {α : Type} (f : α → ℚ) (l : List α) :
    (sortDescBy f l).Perm l := by
  induction l with
  | nil => simp [sortDescBy]
  | cons x xs ih =>
      have hins : ∀ (m : List α), (insertDescBy f x m).Perm (x :: m) := by
        intro m
        induction m with
        | nil => simp [insertDescBy]
        | cons y ys ihm =>
            by_cases h : f y < f x
            · simp [insertDescBy, h]
            · simp only [insertDescBy, if_neg h]
              exact (ihm.cons y).trans (List.Perm.swap x y ys)
      have h1 : sortDescBy f (x :: xs) = insertDescBy f x (sortDescBy f xs) := rfl
      rw [h1]
      exact (hins _).trans (ih.cons x)

/-! ## Claim theorems -/

/-- C1: on the two-chunk corpus (hello with no calls, main calling hello)
the extraction pass itself produces exactly one CALLS edge from the main
node (id 2) to the hello node (id 1), but build_graph_for_file extends
the returned relationship list with itself, so the list it yields
contains that CALLS edge twice.  This records the divergence between the
code and the claimed single-edge output. -/
theorem buildGraphForFile_duplicates_calls_edge :
    (extractEntitiesAndRelations "ex.py" 0 helloMainCaps).2.filter
        (fun r => r.rtype = "CALLS") = [⟨2, 1, "CALLS"⟩] ∧
      (buildGraphForFile "ex.py" helloMainCaps).2.filter
        (fun r => r.rtype = "CALLS") = [⟨2, 1, "CALLS"⟩, ⟨2, 1, "CALLS"⟩] :=
  ⟨rfl, rfl⟩

/-- C2: fusing the vector list [(A, 0.9), (B, 0.1)] with weight 0.6 and
the BM25 list [(B, 5), (A, 1)] with weight 0.4 normalizes both lists to
[1, 0], giving A the combined score 0.6 and B the combined score 0.4, so
A is ranked first and B second. -/
theorem combineResults_fusion_scenario :
    combineResults [fusionVecA, fusionVecB] [fusionBmB, fusionBmA] (6/10) (4/10) 10 =
      [{ chunk := ⟨"A", ""⟩, score := 6/10, rank := 1, searchType := "hybrid",
         metadata := [("vector_score", .num 1), ("bm25_score", .num 0),
                      ("search_types", .strs ["vector", "bm25"])] },
       { chunk := ⟨"B", ""⟩, score := 4/10, rank := 2, searchType := "hybrid",
         metadata := [("vector_score", .num 0), ("bm25_score", .num 1),
                      ("search_types", .strs ["vector", "bm25"])] }] := by
  norm_num [combineResults, normalizeScores, lookupA, insertA, sortDescBy,
    insertDescBy, List.enum, List.enumFrom, fusionVecA, fusionVecB, fusionBmB,
    fusionBmA]

/-- C5: the blended final score equals 0.6 * combined + 0.4 * graph when
the graph score strictly exceeds the rerank threshold (default 0.5), and
0.8 * combined + 0.2 * graph otherwise. -/
theorem combineScores_blend_rule :
    (∀ c g : ℚ, rerankThreshold < g →
        combineScores rerankThreshold c g = 6/10 * c + 4/10 * g) ∧
      ∀ c g : ℚ, g ≤ rerankThreshold →
        combineScores rerankThreshold c g = 8/10 * c + 2/10 * g := by
  constructor
  · intro c g h
    simp only [combineScores, if_pos h]
    ring
  · intro c g h
    simp only [combineScores, if_neg (not_lt.mpr h)]
    ring

theorem callStep_emap (s : GBState) (c : CallCapture) : (callStep s c).emap = s.emap := by
  unfold callStep
  cases pass2Edge s.emap s.fdefs c <;> rfl

theorem callStep_fdefs (s : GBState) (c : CallCapture) : (callStep s c).fdefs = s.fdefs := by
  unfold callStep
  cases pass2Edge s.emap s.fdefs c <;> rfl

theorem callStep_rels (s : GBState) (c : CallCapture) :
    (callStep s c).rels = s.rels ++ (pass2Edge s.emap s.fdefs c).toList := by
  unfold callStep
  cases pass2Edge s.emap s.fdefs c <;> simp

theorem callFold_rels :
    ∀ (l : List CallCapture) (s : GBState),
      (l.foldl callStep s).rels = s.rels ++ l.filterMap (pass2Edge s.emap s.fdefs) := by
  intro l
  induction l with
  | nil => intro s; simp
  | cons c cs ih =>
      intro s
      have h1 := ih (callStep s c)
      rw [List.foldl_cons, h1, callStep_emap, callStep_fdefs, callStep_rels]
      cases h : pass2Edge s.emap s.fdefs c <;>
        simp [List.filterMap_cons, h]

theorem pass2Edge_rtype (m : List (String × GBEntity)) (f : List FuncDef)
    (c : CallCapture) (r : GBRel) (h : pass2Edge m f c = some r) :
    r.rtype = "CALLS" := by
  unfold pass2Edge at h
  split at h
  · exact absurd h (by simp)
  · split at h
    · cases Option.some.inj h
      rfl
    · exact absurd h (by simp)

theorem pass2Edge_nil_fdefs (m : List (String × GBEntity)) (c : CallCapture) :
    pass2Edge m [] c = none := by
  unfold pass2Edge
  cases c.fnField <;> simp [firstEnclosing]

theorem importFold_no_calls (fid : Nat) :
    ∀ (l : List String) (s : GBState),
      ((l.foldl (importStep fid) s).rels).filter (fun r => r.rtype = "CALLS") =
        s.rels.filter (fun r => r.rtype = "CALLS") := by
  intro l
  induction l with
  | nil => intro s; rfl
  | cons x xs ih =>
      intro s
      rw [List.foldl_cons, ih]
      unfold importStep
      by_cases h : (lookupA s.emap x).isSome
      · simp [h]
      · simp [h]

theorem classFold_no_calls (fp : String) (fid : Nat) :
    ∀ (l : List ClassCap) (s : GBState),
      ((l.foldl (classStep fp fid) s).rels).filter (fun r => r.rtype = "CALLS") =
        s.rels.filter (fun r => r.rtype = "CALLS") := by
  intro l
  induction l with
  | nil => intro s; rfl
  | cons x xs ih =>
      intro s
      rw [List.foldl_cons, ih]
      cases x with
      | classDef => rfl
      | className n => simp [classStep]
      | superclass sup =>
          unfold classStep
          cases hc : s.currentClass with
          | none => rfl
          | some cur =>
              by_cases h : (lookupA s.emap sup).isSome
              · simp only [if_pos h]
                cases h1 : lookupA s.emap cur <;> cases h2 : lookupA s.emap sup <;>
                  simp [h1, h2]
              · simp only [if_neg h]
                cases h1 : lookupA (insertA s.emap sup ⟨s.counter, "Class"⟩) cur <;>
                  cases h2 : lookupA (insertA s.emap sup ⟨s.counter, "Class"⟩) sup <;>
                    simp [h1, h2]

theorem fnFold_no_calls (fp : String) (fid : Nat) :
    ∀ (l : List FnCapture) (s : GBState),
      ((l.foldl (fnStep fp fid) s).rels).filter (fun r => r.rtype = "CALLS") =
        s.rels.filter (fun r => r.rtype = "CALLS") := by
  intro l
  induction l with
  | nil => intro s; rfl
  | cons x xs ih =>
      intro s
      rw [List.foldl_cons, ih]
      cases hx : x.nameField with
      | none => simp [fnStep, hx]
      | some n => simp [fnStep, hx]

theorem extractP1_no_calls (fp : String) (fid : Nat) (caps : FileCaptures) :
    ((extractP1 fp fid caps).rels).filter (fun r => r.rtype = "CALLS") = [] := by
  unfold extractP1
  rw [fnFold_no_calls, classFold_no_calls, importFold_no_calls]
  rfl

/-- C4 amended: a CALLS edge is produced for a call capture exactly when
the capture has a callee identifier, a first enclosing declaration span
exists, and the callee name is bound in the entity map, whose entries
cover imported modules and locally declared classes as well as locally
declared functions. -/
theorem extract_calls_edges_characterization :
    ∀ (fp : String) (fid : Nat) (caps : FileCaptures),
      (extractEntitiesAndRelations fp fid caps).2.filter (fun r => r.rtype = "CALLS") =
        caps.calls.filterMap
          (pass2Edge (extractP1 fp fid caps).emap (extractP1 fp fid caps).fdefs) := by
  intro fp fid caps
  have hext : (extractEntitiesAndRelations fp fid caps).2 =
      (if (extractP1 fp fid caps).fdefs.isEmpty then extractP1 fp fid caps
       else caps.calls.foldl callStep (extractP1 fp fid caps)).rels := rfl
  rw [hext]
  by_cases h : (extractP1 fp fid caps).fdefs.isEmpty
  · rw [if_pos h, extractP1_no_calls]
    have hnil : (extractP1 fp fid caps).fdefs = [] := List.isEmpty_iff.mp h
    rw [hnil]
    have hn : ∀ c : CallCapture, pass2Edge (extractP1 fp fid caps).emap [] c = none :=
      fun c => pass2Edge_nil_fdefs _ c
    simp [List.filterMap_eq_nil_iff, hn]
  · rw [if_neg h, callFold_rels, List.filter_append, extractP1_no_calls,
      List.nil_append]
    apply List.filter_eq_self.mpr
    intro r hr
    obtain ⟨c, _, hc⟩ := List.mem_filterMap.mp hr
    simp [pass2Edge_rtype _ _ _ _ hc]

/-- C4 counterexample: with class C declared and function f calling C()
inside its span, pass 2 emits a CALLS edge from the f node (id 2) to the
C node (id 1), which is a Class node, not a locally declared function. -/
theorem extract_emits_calls_edge_to_class :
    (extractEntitiesAndRelations "ex.py" 0 classCallCaps).2.filter
        (fun r => r.rtype = "CALLS") = [⟨2, 1, "CALLS"⟩] ∧
      ⟨1, "Class", "C", some "ex.py"⟩ ∈ (extractEntitiesAndRelations "ex.py" 0 classCallCaps).1 ∧
      lookupA (extractP1 "ex.py" 0 classCallCaps).emap "C" = some ⟨1, "Class"⟩ :=
  ⟨rfl, by decide, rfl⟩

theorem frcScan (s : JStore) (cid : String) (ts : List String) :
    ∀ (l : List JEdge) (acc : List JEdge × List JNodeData),
      l.foldl
        (fun (acc : List JEdge × List JNodeData) e =>
          if e.relationshipType ∈ ts ∧ (e.sourceId = cid ∨ e.targetId = cid) then
            (acc.1 ++ [e], acc.2 ++ [e.sourceId, e.targetId].filterMap (lookupA s.nodes))
          else acc)
        acc =
      (acc.1 ++ l.filter (fun e =>
          e.relationshipType ∈ ts ∧ (e.sourceId = cid ∨ e.targetId = cid)),
       acc.2 ++ (l.filter (fun e =>
          e.relationshipType ∈ ts ∧ (e.sourceId = cid ∨ e.targetId = cid))).flatMap
            (fun e => [e.sourceId, e.targetId].filterMap (lookupA s.nodes))) := by
  intro l
  induction l with
  | nil => intro acc; simp
  | cons e rest ih =>
      intro acc
      rw [List.foldl_cons]
      by_cases h : e.relationshipType ∈ ts ∧ (e.sourceId = cid ∨ e.targetId = cid)
      · rw [if_pos h, ih]
        simp [List.filter_cons, h]
      · rw [if_neg h, ih]
        simp [List.filter_cons, h]

theorem findRelatedChunks_edges_eq (s : JStore) (cid : String) (ts : List String)
    (hops : Nat) :
    (findRelatedChunks s cid ts hops).edges =
      dedupFirstBy edgeKey []
        (s.edges.filter (fun e =>
          e.relationshipType ∈ ts ∧ (e.sourceId = cid ∨ e.targetId = cid))) := by
  show dedupFirstBy edgeKey [] (s.edges.foldl _ ([], [])).1 = _
  rw [frcScan]
  simp

theorem findRelatedChunks_nodes_eq (s : JStore) (cid : String) (ts : List String)
    (hops : Nat) :
    (findRelatedChunks s cid ts hops).nodes =
      dedupFirstBy (fun n => n.id) []
        ((s.edges.filter (fun e =>
            e.relationshipType ∈ ts ∧ (e.sourceId = cid ∨ e.targetId = cid))).flatMap
          (fun e => [e.sourceId, e.targetId].filterMap (lookupA s.nodes))) := by
  show dedupFirstBy (fun n : JNodeData => n.id) []
      (s.edges.foldl
        (fun (acc : List JEdge × List JNodeData) e =>
          if e.relationshipType ∈ ts ∧ (e.sourceId = cid ∨ e.targetId = cid) then
            (acc.1 ++ [e], acc.2 ++ [e.sourceId, e.targetId].filterMap (lookupA s.nodes))
          else acc)
        ([], [])).2 = _
  rw [frcScan]
  simp

/-- C3 amended: the neighborhood used for feature extraction is exactly
one hop: its edges are the stored edges incident to the candidate with a
relationship type among CALLS, DEFINED_IN, CONTAINS, HAS_METHOD
(INHERITS_FROM is not requested), deduplicated by triple; its nodes are
the stored endpoint records of those edges, deduplicated by id; and the
max_hops argument has no effect on the returned nodes or edges. -/
theorem rerankerNeighborhood_one_hop_characterization :
    ∀ (s : JStore) (cid : String),
      (∀ e ∈ (rerankerNeighborhood s cid).edges,
          e ∈ s.edges ∧ e.relationshipType ∈ rerankerRelTypes ∧
            (e.sourceId = cid ∨ e.targetId = cid)) ∧
      (∀ e ∈ s.edges, e.relationshipType ∈ rerankerRelTypes →
          (e.sourceId = cid ∨ e.targetId = cid) →
          ∃ e2 ∈ (rerankerNeighborhood s cid).edges, edgeKey e2 = edgeKey e) ∧
      (∀ n ∈ (rerankerNeighborhood s cid).nodes,
          ∃ e ∈ s.edges, e.relationshipType ∈ rerankerRelTypes ∧
            (e.sourceId = cid ∨ e.targetId = cid) ∧
            (lookupA s.nodes e.sourceId = some n ∨ lookupA s.nodes e.targetId = some n)) ∧
      (∀ e ∈ s.edges, e.relationshipType ∈ rerankerRelTypes →
          (e.sourceId = cid ∨ e.targetId = cid) →
          ∀ d : JNodeData,
            (lookupA s.nodes e.sourceId = some d ∨ lookupA s.nodes e.targetId = some d) →
            ∃ n ∈ (rerankerNeighborhood s cid).nodes, n.id = d.id) ∧
      (∀ (ts : List String) (h1 h2 : Nat),
          (findRelatedChunks s cid ts h1).nodes = (findRelatedChunks s cid ts h2).nodes ∧
            (findRelatedChunks s cid ts h1).edges = (findRelatedChunks s cid ts h2).edges) := by
  intro s cid
  refine ⟨?_, ?_, ?_, ?_, ?_⟩
  · intro e he
    rw [rerankerNeighborhood, findRelatedChunks_edges_eq] at he
    have := mem_dedupFirstBy edgeKey [] _ e he
    rw [List.mem_filter] at this
    refine ⟨this.1, ?_⟩
    have h2 := of_decide_eq_true this.2
    exact h2
  · intro e he h1 h2
    rw [rerankerNeighborhood, findRelatedChunks_edges_eq]
    apply dedupFirstBy_covers edgeKey [] _ e ?_ (by simp)
    rw [List.mem_filter]
    exact ⟨he, decide_eq_true (by exact ⟨h1, h2⟩)⟩
  · intro n hn
    rw [rerankerNeighborhood, findRelatedChunks_nodes_eq] at hn
    have := mem_dedupFirstBy _ [] _ n hn
    obtain ⟨e, hef, hn2⟩ := List.mem_flatMap.mp this
    rw [List.mem_filter] at hef
    obtain ⟨a, ha, hla⟩ := List.mem_filterMap.mp hn2
    have hcond := of_decide_eq_true hef.2
    refine ⟨e, hef.1, hcond.1, hcond.2, ?_⟩
    rcases List.mem_cons.mp ha with rfl | ha
    · exact Or.inl hla
    · rcases List.mem_cons.mp ha with rfl | ha
      · exact Or.inr hla
      · simp at ha
  · intro e he h1 h2 d hd
    rw [rerankerNeighborhood, findRelatedChunks_nodes_eq]
    have hdF : d ∈ [e.sourceId, e.targetId].filterMap (lookupA s.nodes) := by
      rcases hd with hd | hd
      · exact List.mem_filterMap.mpr ⟨e.sourceId, by simp, hd⟩
      · exact List.mem_filterMap.mpr ⟨e.targetId, by simp, hd⟩
    have hgather : d ∈ (s.edges.filter (fun e =>
        e.relationshipType ∈ rerankerRelTypes ∧
          (e.sourceId = cid ∨ e.targetId = cid))).flatMap
        (fun e => [e.sourceId, e.targetId].filterMap (lookupA s.nodes)) := by
      apply List.mem_flatMap.mpr
      refine ⟨e, ?_, hdF⟩
      rw [List.mem_filter]
      exact ⟨he, decide_eq_true (by exact ⟨h1, h2⟩)⟩
    exact dedupFirstBy_covers _ [] _ d hgather (by simp)
  · intro ts h1 h2
    exact ⟨rfl, rfl⟩

/-- C3 counterexample: in a store with the CALLS chain A to B to C and an
INHERITS_FROM edge from A to D, the node C is reachable from A within 2
hops through the relationship types the specification lists, and D within
1 hop, yet the neighborhood the reranker obtains for A contains neither. -/
theorem rerankerNeighborhood_counterexample :
    "C" ∈ specHopBall c3Store specNeighborhoodTypes "A" 2 ∧
      "D" ∈ specHopBall c3Store specNeighborhoodTypes "A" 2 ∧
      (rerankerNeighborhood c3Store "A").nodes.all
        (fun n => n.id ≠ "C" && n.id ≠ "D") = true := by
  decide

theorem foldlMax_le {α : Type} (f : α → Nat) (B : Nat) :
    ∀ (l : List α) (a : Nat), a ≤ B → (∀ c ∈ l, f c ≤ B) →
      l.foldl (fun m c => max m (f c)) a ≤ B := by
  intro l
  induction l with
  | nil => intro a ha _; simpa using ha
  | cons x xs ih =>
      intro a ha hl
      rw [List.foldl_cons]
      exact ih _ (max_le ha (hl x (List.mem_cons_self _ _)))
        (fun c hc => hl c (List.mem_cons_of_mem _ hc))

theorem foldlMax_congr {α : Type} (f g : α → Nat) :
    ∀ (l : List α) (a : Nat), (∀ c ∈ l, f c = g c) →
      l.foldl (fun m c => max m (f c)) a = l.foldl (fun m c => max m (g c)) a := by
  intro l
  induction l with
  | nil => intro a _; rfl
  | cons x xs ih =>
      intro a hl
      rw [List.foldl_cons, List.foldl_cons, hl x (List.mem_cons_self _ _)]
      exact ih _ (fun c hc => hl c (List.mem_cons_of_mem _ hc))

theorem callDepthGo_le (edges : List JEdge) :
    ∀ (fuel : Nat) (fid : String) (d : Nat),
      callDepthGo edges fuel fid d ≤ max d 11 := by
  intro fuel
  induction fuel with
  | zero => intro fid d; exact le_max_left _ _
  | succ fuel ih =>
      intro fid d
      rw [callDepthGo]
      by_cases hd : 10 < d
      · rw [if_pos hd]; exact le_max_left _ _
      · rw [if_neg hd]
        by_cases hc : ((edges.filter fun e =>
            e.sourceId == fid && e.relationshipType == "CALLS").map
              fun e => e.targetId).isEmpty
        · simp only [hc, if_pos rfl]
          exact le_max_left _ _
        · simp only [hc]
          rw [if_neg (by simp [hc])]
          apply foldlMax_le
          · exact le_max_left _ _
          · intro c _
            have := ih c (d + 1)
            have h11 : max (d + 1) 11 = 11 := by omega
            rw [h11] at this
            exact le_trans this (le_max_right _ _)

theorem inheritDepthGo_le (edges : List JEdge) :
    ∀ (fuel : Nat) (cid : String) (d : Nat),
      inheritDepthGo edges fuel cid d ≤ max d 11 := by
  intro fuel
  induction fuel with
  | zero => intro cid d; exact le_max_left _ _
  | succ fuel ih =>
      intro cid d
      rw [inheritDepthGo]
      by_cases hd : 10 < d
      · rw [if_pos hd]; exact le_max_left _ _
      · rw [if_neg hd]
        by_cases hc : ((edges.filter fun e =>
            e.sourceId == cid && e.relationshipType == "INHERITS_FROM").map
              fun e => e.targetId).isEmpty
        · simp only [hc, if_pos rfl]
          exact le_max_left _ _
        · simp only [hc]
          rw [if_neg (by simp [hc])]
          apply foldlMax_le
          · exact le_max_left _ _
          · intro c _
            have := ih c (d + 1)
            have h11 : max (d + 1) 11 = 11 := by omega
            rw [h11] at this
            exact le_trans this (le_max_right _ _)

theorem callDepthGo_fuel_stable (edges : List JEdge) :
    ∀ (f1 f2 : Nat) (fid : String) (d : Nat), 11 - d < f1 → 11 - d < f2 →
      callDepthGo edges f1 fid d = callDepthGo edges f2 fid d := by
  intro f1
  induction f1 with
  | zero => intro f2 fid d h1 _; omega
  | succ f1 ih =>
      intro f2 fid d h1 h2
      cases f2 with
      | zero => omega
      | succ f2 =>
          rw [callDepthGo, callDepthGo]
          by_cases hd : 10 < d
          · rw [if_pos hd, if_pos hd]
          · rw [if_neg hd, if_neg hd]
            by_cases hc : ((edges.filter fun e =>
                e.sourceId == fid && e.relationshipType == "CALLS").map
                  fun e => e.targetId).isEmpty
            · simp [hc]
            · simp only [hc]
              rw [if_neg (by simp [hc]), if_neg (by simp [hc])]
              apply foldlMax_congr
              intro c _
              exact ih f2 c (d + 1) (by omega) (by omega)

theorem inheritDepthGo_fuel_stable (edges : List JEdge) :
    ∀ (f1 f2 : Nat) (cid : String) (d : Nat), 11 - d < f1 → 11 - d < f2 →
      inheritDepthGo edges f1 cid d = inheritDepthGo edges f2 cid d := by
  intro f1
  induction f1 with
  | zero => intro f2 cid d h1 _; omega
  | succ f1 ih =>
      intro f2 cid d h1 h2
      cases f2 with
      | zero => omega
      | succ f2 =>
          rw [inheritDepthGo, inheritDepthGo]
          by_cases hd : 10 < d
          · rw [if_pos hd, if_pos hd]
          · rw [if_neg hd, if_neg hd]
            by_cases hc : ((edges.filter fun e =>
                e.sourceId == cid && e.relationshipType == "INHERITS_FROM").map
                  fun e => e.targetId).isEmpty
            · simp [hc]
            · simp only [hc]
              rw [if_neg (by simp [hc]), if_neg (by simp [hc])]
              apply foldlMax_congr
              intro c _
              exact ih f2 c (d + 1) (by omega) (by omega)

/-- C8: both depth recursions are bounded by the depth cap: from any
starting depth d the result never exceeds max d 11 (a chain entered at
depth 0 stops no later than depth 11, the first depth exceeding the cap
of 10); the recursion has converged at the modelled fuel, since every
sufficiently large fuel computes the same value, which is what
termination of the source recursion means for the embedding; and on the
cyclic graphs A-calls-B-calls-A and A-inherits-B-inherits-A the
traversals stop exactly at depth 11. -/
theorem depth_traversals_capped :
    (∀ (edges : List JEdge) (fid : String) (d : Nat),
        calculateFunctionCallDepth edges fid d ≤ max d 11) ∧
      (∀ (edges : List JEdge) (cid : String) (d : Nat),
          calculateClassInheritanceDepth edges cid d ≤ max d 11) ∧
      (∀ (edges : List JEdge) (fid : String) (fuel : Nat), 12 ≤ fuel →
          callDepthGo edges fuel fid 0 = calculateFunctionCallDepth edges fid 0) ∧
      (∀ (edges : List JEdge) (cid : String) (fuel : Nat), 12 ≤ fuel →
          inheritDepthGo edges fuel cid 0 = calculateClassInheritanceDepth edges cid 0) ∧
      calculateFunctionCallDepth cycEdges "A" 0 = 11 ∧
      calculateClassInheritanceDepth cycInhEdges "A" 0 = 11 := by
  refine ⟨?_, ?_, ?_, ?_, ?_, ?_⟩
  · intro edges fid d; exact callDepthGo_le edges 12 fid d
  · intro edges cid d; exact inheritDepthGo_le edges 12 cid d
  · intro edges fid fuel hf
    exact callDepthGo_fuel_stable edges fuel 12 fid 0 (by omega) (by omega)
  · intro edges cid fuel hf
    exact inheritDepthGo_fuel_stable edges fuel 12 cid 0 (by omega) (by omega)
  · decide
  · decide

theorem enhanceGo_projection (gq : String → Except Unit RGraphResult) :
    ∀ (l : List SResult),
      (enhanceGo gq l).map (fun r => (r.chunk, r.score, r.rank, r.searchType)) =
        l.map (fun r => (r.chunk, r.score, r.rank, r.searchType)) := by
  intro l
  induction l with
  | nil => rfl
  | cons r rest ih =>
      rw [enhanceGo]
      cases gq r.chunk.id with
      | error e => rfl
      | ok g => simp [ih]

/-- C10: hybrid search returns the same chunks, scores, ranks and
ordering with graph enhancement on as with it off, for every graph query
(including one that raises at any point): the enhancement step only
rewrites candidate metadata. -/
theorem hybridSearch_graph_invariant :
    ∀ (gq : String → Except Unit RGraphResult) (vres bres : List SResult)
      (wv wb : ℚ) (k : Nat),
      (hybridSearch true gq vres bres wv wb k).map
          (fun r => (r.chunk, r.score, r.rank, r.searchType)) =
        (hybridSearch false gq vres bres wv wb k).map
          (fun r => (r.chunk, r.score, r.rank, r.searchType)) := by
  intro gq vres bres wv wb k
  rw [hybridSearch, hybridSearch]
  by_cases h : (combineResults vres bres wv wb k).isEmpty
  · simp [h]
  · simp only [h]
    rw [if_pos (by simp [h]), if_neg (by simp)]
    exact enhanceGo_projection gq _

theorem rankify_map_id :
    ∀ (n : Nat) (l : List SResult),
      ((List.enumFrom n l).map fun p => { p.2 with rank := p.1 + 1 }).map
          (fun r => r.chunk.id) =
        l.map fun r => r.chunk.id := by
  intro n l
  induction l generalizing n with
  | nil => rfl
  | cons b bs ih => simp [List.enumFrom, ih]

theorem rankify_mem (a : SResult) :
    ∀ (n : Nat) (l : List SResult), a ∈ l →
      ∃ o ∈ (List.enumFrom n l).map fun p => { p.2 with rank := p.1 + 1 },
        o.chunk.id = a.chunk.id ∧ o.score = a.score ∧ o.metadata = a.metadata := by
  intro n l
  induction l generalizing n with
  | nil => intro h; simp at h
  | cons b bs ih =>
      intro h
      rcases List.mem_cons.mp h with rfl | h
      · exact ⟨{ a with rank := n + 1 }, by simp [List.enumFrom], rfl, rfl, rfl⟩
      · obtain ⟨o, ho, hfields⟩ := ih (n + 1) h
        refine ⟨o, ?_, hfields⟩
        have hcons : (List.enumFrom n (b :: bs)).map
            (fun p => { p.2 with rank := p.1 + 1 }) =
            { b with rank := n + 1 } ::
              (List.enumFrom (n + 1) bs).map (fun p => { p.2 with rank := p.1 + 1 }) := rfl
        rw [hcons]
        exact List.mem_cons_of_mem _ ho

theorem rerankOne_of_error (gq : String → Except Unit RGraphResult)
    (query : String) (r : SResult) (h : gq r.chunk.id = .error ()) :
    (rerankOne gq query r).chunk.id = r.chunk.id ∧
      (rerankOne gq query r).score = combineScores rerankThreshold r.score 0 ∧
      lookupA (rerankOne gq query r).metadata "graph_score" = some (.num 0) := by
  have hg : calcGraphScore gq r query = 0 := by
    rw [calcGraphScore, h]
  refine ⟨rfl, ?_, ?_⟩
  · show combineScores rerankThreshold r.score (calcGraphScore gq r query) =
      combineScores rerankThreshold r.score 0
    rw [hg]
  · show lookupA (insertA (insertA r.metadata "graph_score"
        (.num (calcGraphScore gq r query))) "combined_score" _) "graph_score" =
      some (.num 0)
    rw [lookupA_insertA_ne _ _ _ _ (by decide), hg, lookupA_insertA_self]

/-- C6: when the neighborhood query raises for a candidate, reranking
still returns a full ranked list (provided top_k admits all candidates):
the output chunk ids are a permutation of the input ids, and every
candidate whose query failed appears with graph score 0.0 recorded in its
metadata and its blended score computed from a zero graph signal, so the
failure of one candidate never aborts the pass for the others. -/
theorem rerank_tolerates_graph_failure :
    ∀ (gq : String → Except Unit RGraphResult) (query : String)
      (results : List SResult) (topK : Nat),
      results.length ≤ topK →
      ((rerankResults gq query results topK).map (fun r => r.chunk.id)).Perm
          (results.map (fun r => r.chunk.id)) ∧
        ∀ r ∈ results, gq r.chunk.id = .error () →
          ∃ o ∈ rerankResults gq query results topK,
            o.chunk.id = r.chunk.id ∧
              o.score = combineScores rerankThreshold r.score 0 ∧
              lookupA o.metadata "graph_score" = some (.num 0) := by
  intro gq query results topK hlen
  by_cases hres : results.isEmpty
  · have hnil : results = [] := List.isEmpty_iff.mp hres
    subst hnil
    simp [rerankResults]
  · have hout : rerankResults gq query results topK =
        ((sortDescBy (·.score) (results.map (rerankOne gq query))).enum.map
          fun p => { p.2 with rank := p.1 + 1 }).take topK := by
      rw [rerankResults, if_neg (by simp [hres])]
    have hperm : (sortDescBy (·.score) (results.map (rerankOne gq query))).Perm
        (results.map (rerankOne gq query)) := sortDescBy_perm _ _
    have hlen2 : ((sortDescBy (·.score) (results.map (rerankOne gq query))).enum.map
        (fun p => { p.2 with rank := p.1 + 1 })).length = results.length := by
      simp [hperm.length_eq]
    have htake : rerankResults gq query results topK =
        (sortDescBy (·.score) (results.map (rerankOne gq query))).enum.map
          fun p => { p.2 with rank := p.1 + 1 } := by
      rw [hout]
      exact List.take_of_length_le (by rw [hlen2]; exact hlen)
    constructor
    · rw [htake, List.enum, rankify_map_id]
      have h1 : ((sortDescBy (·.score) (results.map (rerankOne gq query))).map
          (fun r => r.chunk.id)).Perm
          ((results.map (rerankOne gq query)).map (fun r => r.chunk.id)) :=
        hperm.map _
      have h2 : (results.map (rerankOne gq query)).map (fun r => r.chunk.id) =
          results.map (fun r => r.chunk.id) := by
        rw [List.map_map]
        rfl
      rw [h2] at h1
      exact h1
    · intro r hr herr
      have hmem : rerankOne gq query r ∈
          sortDescBy (·.score) (results.map (rerankOne gq query)) :=
        hperm.mem_iff.mpr (List.mem_map_of_mem _ hr)
      obtain ⟨o, ho, hid, hscore, hmeta⟩ := rankify_mem (rerankOne gq query r) 0 _ hmem
      refine ⟨o, ?_, ?_, ?_, ?_⟩
      · rw [htake, List.enum]
        exact ho
      · rw [hid]
        exact (rerankOne_of_error gq query r herr).1
      · rw [hscore]
        exact (rerankOne_of_error gq query r herr).2.1
      · rw [hmeta]
        exact (rerankOne_of_error gq query r herr).2.2

/-- C6 witness: the two-candidate list with a query that raises exactly
on the first candidate satisfies the length hypothesis and the theorem
applies to it. -/
theorem rerank_tolerates_graph_failure_witness :
    ([failCand, okCand] : List SResult).length ≤ 10 ∧
      (((rerankResults failingQuery "q" [failCand, okCand] 10).map
            (fun r => r.chunk.id)).Perm
          ([failCand, okCand].map (fun r => r.chunk.id)) ∧
        ∀ r ∈ [failCand, okCand], failingQuery r.chunk.id = .error () →
          ∃ o ∈ rerankResults failingQuery "q" [failCand, okCand] 10,
            o.chunk.id = r.chunk.id ∧
              o.score = combineScores rerankThreshold r.score 0 ∧
              lookupA o.metadata "graph_score" = some (.num 0)) :=
  ⟨by decide,
   rerank_tolerates_graph_failure failingQuery "q" [failCand, okCand] 10 (by decide)⟩

theorem mem_keyFold_base {β : Type} [DecidableEq β] (x : β) :
    ∀ (l b : List β), x ∈ b → x ∈ keyFold b l := by
  intro l
  induction l with
  | nil => intro b h; exact h
  | cons k ks ih =>
      intro b h
      rw [keyFold, List.foldl_cons]
      by_cases hk : k ∈ b
      · rw [if_pos hk]; exact ih b h
      · rw [if_neg hk]
        exact ih _ (List.mem_append_left _ h)

theorem mem_keyFold_of_mem {β : Type} [DecidableEq β] (x : β) :
    ∀ (l b : List β), x ∈ l → x ∈ keyFold b l := by
  intro l
  induction l with
  | nil => intro b h; simp at h
  | cons k ks ih =>
      intro b h
      rcases List.mem_cons.mp h with rfl | h
      · rw [keyFold, List.foldl_cons]
        by_cases hk : x ∈ b
        · rw [if_pos hk]; exact mem_keyFold_base x ks b hk
        · rw [if_neg hk]
          exact mem_keyFold_base x ks _ (List.mem_append_right _ (by simp))
      · rw [keyFold, List.foldl_cons]
        by_cases hk : k ∈ b <;> [rw [if_pos hk]; rw [if_neg hk]] <;> exact ih _ h

theorem keyFold_eq_self {β : Type} [DecidableEq β] :
    ∀ (l b : List β), (∀ k ∈ l, k ∈ b) → keyFold b l = b := by
  intro l
  induction l with
  | nil => intro b _; rfl
  | cons k ks ih =>
      intro b h
      rw [keyFold, List.foldl_cons, if_pos (h k (List.mem_cons_self _ _))]
      exact ih b fun x hx => h x (List.mem_cons_of_mem _ hx)

theorem keyFold_nodup {β : Type} [DecidableEq β] :
    ∀ (l b : List β), b.Nodup → (keyFold b l).Nodup := by
  intro l
  induction l with
  | nil => intro b h; exact h
  | cons k ks ih =>
      intro b h
      rw [keyFold, List.foldl_cons]
      by_cases hk : k ∈ b
      · rw [if_pos hk]; exact ih b h
      · rw [if_neg hk]
        refine ih _ ?_
        simp [List.nodup_append, h, hk]

theorem insertA_length_of_mem {κ α : Type} [DecidableEq κ] :
    ∀ (l : List (κ × α)) (k : κ) (v : α), k ∈ keysA l →
      (insertA l k v).length = l.length := by
  intro l
  induction l with
  | nil => intro k v h; simp [keysA] at h
  | cons p rest ih =>
      intro k v h
      by_cases hp : p.1 = k
      · simp [insertA, hp]
      · rw [keysA_cons, List.mem_cons] at h
        rcases h with h | h
        · exact absurd h.symm hp
        · simp [insertA, hp, ih k v h]

theorem mem_keysA_of_lookup_isSome {κ α : Type} [DecidableEq κ]
    (l : List (κ × α)) (k : κ) (h : (lookupA l k).isSome) : k ∈ keysA l := by
  by_contra hk
  rw [lookupA_eq_none_of_not_mem l k hk] at h
  simp at h

theorem createRelEdges_keys (src tgt ty : String) (props : List (String × String)) :
    ∀ (es : List JEdge),
      (createRelEdges src tgt ty props es).map edgeKey =
        if (src, tgt, ty) ∈ es.map edgeKey then es.map edgeKey
        else es.map edgeKey ++ [(src, tgt, ty)] := by
  intro es
  induction es with
  | nil => simp [createRelEdges, edgeKey]
  | cons e rest ih =>
      by_cases h : e.sourceId = src ∧ e.targetId = tgt ∧ e.relationshipType = ty
      · have hkey : edgeKey e = (src, tgt, ty) := by
          rw [edgeKey, h.1, h.2.1, h.2.2]
        rw [createRelEdges, if_pos h]
        have : edgeKey { e with props := updateProps e.props props } = edgeKey e := rfl
        simp [hkey, this]
      · have hkey : edgeKey e ≠ (src, tgt, ty) := by
          rw [edgeKey]
          intro hc
          injection hc with h1 h23
          injection h23 with h2 h3
          exact h ⟨h1, h2, h3⟩
        rw [createRelEdges, if_neg h]
        rw [List.map_cons, List.map_cons, ih]
        by_cases hm : (src, tgt, ty) ∈ rest.map edgeKey
        · simp [hm, hkey.symm]
        · simp [hm, hkey.symm]

theorem createRelEdges_length_of_mem (src tgt ty : String)
    (props : List (String × String)) :
    ∀ (es : List JEdge), (src, tgt, ty) ∈ es.map edgeKey →
      (createRelEdges src tgt ty props es).length = es.length := by
  intro es
  induction es with
  | nil => intro h; simp at h
  | cons e rest ih =>
      intro h
      by_cases hc : e.sourceId = src ∧ e.targetId = tgt ∧ e.relationshipType = ty
      · rw [createRelEdges, if_pos hc]
        rfl
      · have hkey : edgeKey e ≠ (src, tgt, ty) := by
          rw [edgeKey]
          intro hcc
          injection hcc with h1 h23
          injection h23 with h2 h3
          exact hc ⟨h1, h2, h3⟩
        rw [createRelEdges, if_neg hc]
        rw [List.map_cons, List.mem_cons] at h
        rcases h with h | h
        · exact absurd h.symm hkey
        · simp [ih h]

theorem runOps_nodes_keys :
    ∀ (ops : List JOp) (s : JStore),
      keysA (runOps s ops).nodes = keyFold (keysA s.nodes) (opNodeKeys ops) := by
  intro ops
  induction ops with
  | nil => intro s; rfl
  | cons op rest ih =>
      intro s
      rw [runOps, List.foldl_cons]
      have hrw : (rest.foldl applyOp (applyOp s op)) = runOps (applyOp s op) rest := rfl
      rw [hrw, ih]
      cases op with
      | putNode id d =>
          have h1 : keysA (applyOp s (JOp.putNode id d)).nodes =
              if id ∈ keysA s.nodes then keysA s.nodes else keysA s.nodes ++ [id] := by
            show keysA (insertA s.nodes id d) = _
            exact keysA_insertA s.nodes id d
          rw [h1]
          have h2 : opNodeKeys (JOp.putNode id d :: rest) = id :: opNodeKeys rest := by
            simp [opNodeKeys]
          rw [h2, keyFold, keyFold, List.foldl_cons]
      | putEdge src tgt ty props =>
          have h1 : keysA (applyOp s (JOp.putEdge src tgt ty props)).nodes =
              keysA s.nodes := rfl
          have h2 : opNodeKeys (JOp.putEdge src tgt ty props :: rest) =
              opNodeKeys rest := by
            simp [opNodeKeys]
          rw [h1, h2]

theorem runOps_edges_keys :
    ∀ (ops : List JOp) (s : JStore),
      (runOps s ops).edges.map edgeKey = keyFold (s.edges.map edgeKey) (opEdgeKeys ops) := by
  intro ops
  induction ops with
  | nil => intro s; rfl
  | cons op rest ih =>
      intro s
      rw [runOps, List.foldl_cons]
      have hrw : (rest.foldl applyOp (applyOp s op)) = runOps (applyOp s op) rest := rfl
      rw [hrw, ih]
      cases op with
      | putNode id d =>
          have h1 : (applyOp s (JOp.putNode id d)).edges = s.edges := rfl
          have h2 : opEdgeKeys (JOp.putNode id d :: rest) = opEdgeKeys rest := by
            simp [opEdgeKeys]
          rw [h1, h2]
      | putEdge src tgt ty props =>
          have h1 : (applyOp s (JOp.putEdge src tgt ty props)).edges.map edgeKey =
              if (src, tgt, ty) ∈ s.edges.map edgeKey then s.edges.map edgeKey
              else s.edges.map edgeKey ++ [(src, tgt, ty)] :=
            createRelEdges_keys src tgt ty props s.edges
          have h2 : opEdgeKeys (JOp.putEdge src tgt ty props :: rest) =
              (src, tgt, ty) :: opEdgeKeys rest := by
            simp [opEdgeKeys]
          rw [h1, h2, keyFold, keyFold, List.foldl_cons]
          by_cases hm : (src, tgt, ty) ∈ s.edges.map edgeKey
          · rw [if_pos hm, if_pos hm]
          · rw [if_neg hm, if_neg hm]


theorem lastNodeWrite_acc (id : String) :
    ∀ (ops : List JOp) (a : Option JNodeData),
      ops.foldl (lastWriteStep id) a =
        match lastNodeWrite ops id with
        | some d => some d
        | none => a := by
  intro ops
  induction ops with
  | nil => intro a; rfl
  | cons op rest ih =>
      intro a
      have hR : lastNodeWrite (op :: rest) id =
          rest.foldl (lastWriteStep id) (lastWriteStep id none op) := rfl
      rw [List.foldl_cons, ih, hR, ih]
      cases h : lastNodeWrite rest id with
      | some d => rfl
      | none =>
          cases op with
          | putNode i d => by_cases hi : i = id <;> simp [lastWriteStep, hi]
          | putEdge src tgt ty props => rfl

theorem lookupA_runOps_nodes (id : String) :
    ∀ (ops : List JOp) (s : JStore),
      lookupA (runOps s ops).nodes id =
        match lastNodeWrite ops id with
        | some d => some d
        | none => lookupA s.nodes id := by
  intro ops
  induction ops with
  | nil => intro s; rfl
  | cons op rest ih =>
      intro s
      have hrw : runOps s (op :: rest) = runOps (applyOp s op) rest := rfl
      have hR : lastNodeWrite (op :: rest) id =
          rest.foldl (lastWriteStep id) (lastWriteStep id none op) := rfl
      rw [hrw, ih, hR, lastNodeWrite_acc id rest]
      cases h : lastNodeWrite rest id with
      | some d => rfl
      | none =>
          cases op with
          | putNode i d =>
              by_cases hi : i = id
              · simp only [lastWriteStep, if_pos hi]
                show lookupA (insertA s.nodes i d) id = some d
                rw [hi, lookupA_insertA_self]
              · simp only [lastWriteStep, if_neg hi]
                show lookupA (insertA s.nodes i d) id = lookupA s.nodes id
                exact lookupA_insertA_ne s.nodes i id d hi
          | putEdge src tgt ty props => rfl

theorem runOps_twice_nodes (s : JStore) (ops : List JOp)
    (hnd : (keysA s.nodes).Nodup) :
    (runOps (runOps s ops) ops).nodes = (runOps s ops).nodes := by
  apply assocExt
  · rw [runOps_nodes_keys, runOps_nodes_keys]
    apply keyFold_eq_self
    intro k hk
    exact mem_keyFold_of_mem k (opNodeKeys ops) _ hk
  · rw [runOps_nodes_keys, runOps_nodes_keys]
    exact keyFold_nodup _ _ (keyFold_nodup _ _ hnd)
  · intro k
    rw [lookupA_runOps_nodes, lookupA_runOps_nodes]
    cases lastNodeWrite ops k <;> rfl

theorem runOps_twice_edge_keys (s : JStore) (ops : List JOp) :
    (runOps (runOps s ops) ops).edges.map edgeKey =
      (runOps s ops).edges.map edgeKey := by
  rw [runOps_edges_keys, runOps_edges_keys]
  apply keyFold_eq_self
  intro k hk
  exact mem_keyFold_of_mem k (opEdgeKeys ops) _ hk

/-- C7: creating a node whose id is already in the store keeps the node
count and overwrites the stored record, creating a relationship whose
(source, target, type) triple already exists keeps the edge list length
(properties are merged into the first matching edge), and consequently
running one indexing pass twice leaves every per-kind node count and
per-type edge count of the store equal to running it once. -/
theorem graph_store_indexing_idempotent :
    ∀ (s : JStore) (ops : List JOp), (keysA s.nodes).Nodup →
      (∀ (id : String) (d : JNodeData), (lookupA s.nodes id).isSome →
          (applyOp s (.putNode id d)).nodes.length = s.nodes.length ∧
            lookupA (applyOp s (.putNode id d)).nodes id = some d) ∧
      (∀ (src tgt ty : String) (props : List (String × String)),
          (∃ e ∈ s.edges, edgeKey e = (src, tgt, ty)) →
          (applyOp s (.putEdge src tgt ty props)).edges.length = s.edges.length) ∧
      (∀ t, nodeCountByType (runOps (runOps s ops) ops) t =
          nodeCountByType (runOps s ops) t) ∧
      (∀ t, edgeCountByType (runOps (runOps s ops) ops) t =
          edgeCountByType (runOps s ops) t) := by
  intro s ops hnd
  refine ⟨?_, ?_, ?_, ?_⟩
  · intro id d h
    constructor
    · show (insertA s.nodes id d).length = s.nodes.length
      exact insertA_length_of_mem s.nodes id d (mem_keysA_of_lookup_isSome s.nodes id h)
    · show lookupA (insertA s.nodes id d) id = some d
      exact lookupA_insertA_self s.nodes id d
  · intro src tgt ty props h
    obtain ⟨e, he, hkey⟩ := h
    show (createRelEdges src tgt ty props s.edges).length = s.edges.length
    apply createRelEdges_length_of_mem
    rw [← hkey]
    exact List.mem_map_of_mem edgeKey he
  · intro t
    rw [nodeCountByType, nodeCountByType, runOps_twice_nodes s ops hnd]
  · intro t
    have h := runOps_twice_edge_keys s ops
    rw [edgeCountByType, edgeCountByType]
    have h2 : ∀ (es : List JEdge), es.map (fun e => e.relationshipType) =
        (es.map edgeKey).map (fun k => k.2.2) := by
      intro es
      rw [List.map_map]
      rfl
    rw [h2, h2, h]

/-- C7 witness: the idempotence theorem applied to the empty store and a
concrete indexing pass writing one file node, one chunk node and their
CONTAINS edge. -/
theorem graph_store_indexing_idempotent_witness :
    (keysA (JStore.mk [] []).nodes).Nodup ∧
      ((∀ (id : String) (d : JNodeData),
          (lookupA (JStore.mk [] []).nodes id).isSome →
          (applyOp (JStore.mk [] []) (.putNode id d)).nodes.length =
              (JStore.mk [] []).nodes.length ∧
            lookupA (applyOp (JStore.mk [] []) (.putNode id d)).nodes id = some d) ∧
        (∀ (src tgt ty : String) (props : List (String × String)),
            (∃ e ∈ (JStore.mk [] []).edges, edgeKey e = (src, tgt, ty)) →
            (applyOp (JStore.mk [] []) (.putEdge src tgt ty props)).edges.length =
              (JStore.mk [] []).edges.length) ∧
        (∀ t, nodeCountByType (runOps (runOps (JStore.mk [] []) witnessOps) witnessOps) t =
            nodeCountByType (runOps (JStore.mk [] []) witnessOps) t) ∧
        (∀ t, edgeCountByType (runOps (runOps (JStore.mk [] []) witnessOps) witnessOps) t =
            edgeCountByType (runOps (JStore.mk [] []) witnessOps) t)) :=
  ⟨by decide, graph_store_indexing_idempotent (JStore.mk [] []) witnessOps (by decide)⟩

theorem bm25SearchSelect_pos (scores : List ℚ) (topK : Nat) :
    ∀ r ∈ bm25SearchSelect scores topK, 0 < r.score := by
  intro r hr
  rw [bm25SearchSelect] at hr
  obtain ⟨p, _, hp⟩ := List.mem_filterMap.mp hr
  by_cases h : 0 < scores.getD p.2 0
  · rw [if_pos h] at hp
    cases Option.some.inj hp
    exact h
  · rw [if_neg h] at hp
    exact absurd hp (by simp)

theorem bm25TermScore_nonneg (corpus : List (List String)) (t : String)
    (d : List String) : 0 ≤ bm25TermScore corpus t d := by
  have havg : 0 ≤ avgdl corpus := by
    rw [avgdl]
    positivity
  have hidf : 0 ≤ bm25IDF corpus t := by
    rw [bm25IDF]
    apply Real.log_nonneg
    have hdf : (docFreq t corpus : ℝ) ≤ corpus.length := by
      exact_mod_cast List.length_filter_le _ _
    have h1 : 0 ≤ ((corpus.length : ℝ) - docFreq t corpus + 1/2) /
        ((docFreq t corpus : ℝ) + 1/2) := by
      apply div_nonneg
      · linarith
      · positivity
    linarith
  have hratio : 0 ≤ (d.length : ℝ) / avgdl corpus :=
    div_nonneg (by positivity) havg
  have hf : 0 ≤ (termFreq t d : ℝ) := Nat.cast_nonneg _
  rw [bm25TermScore, bm25K1, bm25B]
  apply div_nonneg
  · apply mul_nonneg hidf
    positivity
  · linarith

/-- C9: every result BM25Search.search returns carries a strictly
positive score (documents scoring at most 0 are filtered out of the
selection, whatever score vector the scoring model produced), and under
the specified scoring formula a document of the corpus containing at
least one query token with positive term frequency has a non-negative
BM25 score. -/
theorem bm25_positive_selection_and_nonneg_scores :
    (∀ (scores : List ℚ) (topK : Nat), ∀ r ∈ bm25SearchSelect scores topK,
        0 < r.score) ∧
      ∀ (corpus : List (List String)) (q : String) (d : List String),
        d ∈ corpus → (∃ t ∈ preprocessText q, 0 < termFreq t d) →
        0 ≤ bm25ScoreSpec corpus (preprocessText q) d := by
  constructor
  · exact bm25SearchSelect_pos
  · intro corpus q d _ _
    rw [bm25ScoreSpec]
    apply List.sum_nonneg
    intro x hx
    obtain ⟨t, _, rfl⟩ := List.mem_map.mp hx
    exact bm25TermScore_nonneg corpus t d

/-- C9 witness: a concrete corpus and query exercising the second
conjunct: the query token appears in the first document of the
two-document corpus. -/
theorem bm25_positive_selection_witness :
    ((["hello", "world"] : List String) ∈
        [["hello", "world"], ["def", "main"]] ∧
      ∃ t ∈ preprocessText "hello", 0 < termFreq t ["hello", "world"]) ∧
      0 ≤ bm25ScoreSpec [["hello", "world"], ["def", "main"]]
        (preprocessText "hello") ["hello", "world"] :=
  ⟨⟨by decide, by decide⟩,
   bm25_positive_selection_and_nonneg_scores.2 [["hello", "world"], ["def", "main"]]
     "hello" ["hello", "world"] (by decide) (by decide)⟩
